import Mathlib

/-!
# Verification of the patent-claim parsing pipeline

Shallow embedding of the claim-parsing code in `src/models/corpus_models.py`
(class `Claim`) and `src/patentdata/models/basemodels.py` (class
`BaseTextBlock`), together with proofs settling the frozen claims about it.

Text is modelled as `List Char`.  Python regular-expression searches are
embedded as explicit matchers specialised to the concrete patterns appearing
in the source, with Python `re` semantics (leftmost match, alternatives in
order, greedy quantifiers with backtracking where it can matter).
-/

/-- Python whitespace class `\s` (ASCII part): space, tab, newline, carriage
return, form feed, vertical tab. -/
def isPySpace (c : Char) : Bool :=
  c == ' ' || c == '\t' || c == '\n' || c == '\r' || c == '\x0c' || c == '\x0b'

/-- Python `str.strip()`: remove leading and trailing whitespace. -/
def pyStrip (l : List Char) : List Char :=
  ((l.dropWhile isPySpace).reverse.dropWhile isPySpace).reverse

/-- Python `int(...)` on a string of decimal digits. -/
def parseDigits (l : List Char) : Nat :=
  l.foldl (fun a c => 10 * a + (c.toNat - 48)) 0

/-- The decimal digit characters. -/
def digitChar (d : Nat) : Char :=
  match d with
  | 0 => '0' | 1 => '1' | 2 => '2' | 3 => '3' | 4 => '4'
  | 5 => '5' | 6 => '6' | 7 => '7' | 8 => '8' | 9 => '9'
  | _ => '0'

/-- Decimal representation of a natural number as characters (big-endian). -/
def natChars (n : Nat) : List Char :=
  ((Nat.digits 10 n).map digitChar).reverse

/-- Search for the Python regex `\d+\.` (class `Claim.get_number`,
`src/models/corpus_models.py` line 149): leftmost position where a maximal
digit run is immediately followed by a period.  Backtracking inside `\d+`
cannot produce a match the maximal run misses, because every shorter run is
followed by a further digit, not `.`; so only the maximal run is checked and
failure moves the start position one character right, as `re.search` does.
Returns the matched digit run (the group without its final `.`) and the text
after the match. -/
def numSearch : List Char → Option (List Char × List Char)
  | [] => none
  | c :: cs =>
    if c.isDigit then
      match (c :: cs).dropWhile Char.isDigit with
      | '.' :: tail => some ((c :: cs).takeWhile Char.isDigit, tail)
      | _ => numSearch cs
    else numSearch cs

/-- `Claim.get_number` (`src/models/corpus_models.py` lines 147-158): search
for `\d+\.`; on a match return the digits as an integer and the text after
the match stripped of surrounding whitespace, otherwise no number and the
text unchanged. -/
def get_number (s : List Char) : Option Nat × List Char :=
  match numSearch s with
  | some (ds, tail) => (some (parseDigits ds), pyStrip tail)
  | none => (none, s)

/-- Character at an index, `none` past the end. -/
def charAt (s : List Char) (i : Nat) : Option Char := s[i]?

/-- Does the literal `lit` occur at position `i` of `s`? -/
def litAt (s : List Char) (i : Nat) : List Char → Bool
  | [] => true
  | c :: cs => charAt s i == some c && litAt s (i + 1) cs

/-- Length of the maximal whitespace run starting at position `i`. -/
def wsRunLen (s : List Char) (i : Nat) : Nat :=
  ((s.drop i).takeWhile isPySpace).length

/-- First alternative of the feature-split regex, `;\s*(and)?`
(`src/models/corpus_models.py` line 218).  `\s*` is greedy and maximal; the
optional `and` cannot start inside the whitespace run, so no backtracking
into `\s*` is needed. -/
def featAlt1 (s : List Char) (i : Nat) : Option Nat :=
  if charAt s i == some ';' then
    let j := i + 1 + wsRunLen s (i + 1)
    if litAt s j "and".toList then some (j + 3) else some j
  else none

/-- Second alternative, `,.?(and)?\n`: greedy `.?` (any character except a
newline) then greedy `(and)?` then a newline, trying the four
consume/skip combinations in the regex engine's backtracking order. -/
def featAlt2 (s : List Char) (i : Nat) : Option Nat :=
  if charAt s i == some ',' then
    if (charAt s (i + 1)).any (fun c => c != '\n') && litAt s (i + 2) "and".toList
        && charAt s (i + 5) == some '\n' then some (i + 6)
    else if (charAt s (i + 1)).any (fun c => c != '\n')
        && charAt s (i + 2) == some '\n' then some (i + 3)
    else if litAt s (i + 1) "and".toList && charAt s (i + 4) == some '\n' then some (i + 5)
    else if charAt s (i + 1) == some '\n' then some (i + 2)
    else none
  else none

/-- Third alternative, `:\s*`: a colon and the maximal whitespace run. -/
def featAlt3 (s : List Char) (i : Nat) : Option Nat :=
  if charAt s i == some ':' then some (i + 1 + wsRunLen s (i + 1)) else none

/-- Python `$` without `re.MULTILINE`: matches at the end of the text and
just before a newline that is the last character. -/
def isDollarPos (s : List Char) (k : Nat) : Bool :=
  k == s.length || (k + 1 == s.length && s.getLast? == some '\n')

/-- `\s*$` starting at `j`: greedy, trying end positions `j + k` downward
(every position up to `j + k` lies inside the whitespace run, so each
candidate end is reachable by `\s*`). -/
def wsStarDollar (s : List Char) (j : Nat) : Nat → Option Nat
  | 0 => if isDollarPos s j then some j else none
  | k + 1 => if isDollarPos s (j + k + 1) then some (j + k + 1) else wsStarDollar s j k

/-- Fourth alternative, `\.\s*$`. -/
def featAlt4 (s : List Char) (i : Nat) : Option Nat :=
  if charAt s i == some '.' then wsStarDollar s (i + 1) (wsRunLen s (i + 1)) else none

/-- A match of the feature-split regex
`(;\s*(and)?)|(,.?(and)?\n)|(:\s*)|(\.\s*$)` at position `i`: the
alternatives are tried in order, as the regex engine does. -/
def featMatchAt (s : List Char) (i : Nat) : Option Nat :=
  match featAlt1 s i with
  | some e => some e
  | none =>
    match featAlt2 s i with
    | some e => some e
    | none =>
      match featAlt3 s i with
      | some e => some e
      | none => featAlt4 s i

/-- `re.finditer` for the feature-split regex: scan left to right, emit
non-overlapping matches, resume scanning at each match's end (every match
here consumes at least one character).  The fuel argument only bounds the
recursion; `s.length + 1` is enough because the position strictly
increases. -/
def finditerAux (s : List Char) : Nat → Nat → List (Nat × Nat)
  | _, 0 => []
  | i, fuel + 1 =>
    if i < s.length then
      match featMatchAt s i with
      | some e => (i, e) :: finditerAux s e fuel
      | none => finditerAux s (i + 1) fuel
    else []

/-- All matches of the feature-split regex, leftmost first. -/
def finditer (s : List Char) : List (Nat × Nat) :=
  finditerAux s 0 (s.length + 1)

/-- One feature segment: `{'startindex': ..., 'endindex': ..., 'text': ...}`
as built by `Claim.split_into_features`. -/
structure Feature where
  startindex : Nat
  endindex : Nat
  text : List Char
deriving Repr, DecidableEq

/-- The loop body of `Claim.split_into_features`: each match contributes a
segment from the running `startindex` to the match's end, and the running
index becomes that end. -/
def buildFeatures (s : List Char) (start : Nat) : List (Nat × Nat) → List Feature
  | [] => []
  | (_, e) :: ms => ⟨start, e, (s.drop start).take (e - start)⟩ :: buildFeatures s e ms

/-- `Claim.split_into_features` (`src/models/corpus_models.py` lines
211-232). -/
def split_into_features (s : List Char) : List Feature :=
  buildFeatures s 0 (finditer s)

/-- Concatenation of the segments' `text` fields, in order. -/
def concatTexts (fs : List Feature) : List Char :=
  (fs.map Feature.text).flatten

/-- End offset of the last segment, 0 when there is none. -/
def lastEnd (fs : List Feature) : Nat :=
  match fs.getLast? with
  | some f => f.endindex
  | none => 0

/-- `(C|c)laim` at position `i`: an upper- or lower-case `c` followed by the
literal `laim`. -/
def claimWordAt (s : List Char) (i : Nat) : Bool :=
  (charAt s i == some 'C' || charAt s i == some 'c') && litAt s (i + 1) "laim".toList

/-- Length of the maximal digit run starting at position `i`. -/
def digitRunLen (s : List Char) (i : Nat) : Nat :=
  ((s.drop i).takeWhile Char.isDigit).length

/-- Is the character at position `i` whitespace? -/
def wsAt (s : List Char) (i : Nat) : Bool :=
  (charAt s i).any isPySpace

/-- The optional group `((\sto\s\d+)|(\sor\s(C|c)laim\s\d+))?` of the
primary dependency regex, starting at `d`: returns the position after the
group (equal to `d` when neither alternative matches).  `\d+` is greedy and
maximal; nothing follows it inside the group, so no backtracking arises. -/
def depRangeOpt (s : List Char) (d : Nat) : Nat :=
  if wsAt s d && litAt s (d + 1) "to".toList && wsAt s (d + 3)
      && digitRunLen s (d + 4) > 0 then
    d + 4 + digitRunLen s (d + 4)
  else if wsAt s d && litAt s (d + 1) "or".toList && wsAt s (d + 3)
      && claimWordAt s (d + 4) && wsAt s (d + 9)
      && digitRunLen s (d + 10) > 0 then
    d + 10 + digitRunLen s (d + 10)
  else d

/-- The optional group `(,\swherein)?` starting at `e`: the position after
the group. -/
def depWhereinOpt (s : List Char) (e : Nat) : Nat :=
  if charAt s e == some ',' && wsAt s (e + 1) && litAt s (e + 2) "wherein".toList then
    e + 9
  else e

/-- The part `\s\d+(...)?(,\swherein)?` of the primary dependency regex
starting at `r` (just after `claims?`). -/
def depAfterClaims (s : List Char) (r : Nat) : Option Nat :=
  if wsAt s r && digitRunLen s (r + 1) > 0 then
    some (depWhereinOpt s (depRangeOpt s (r + 1 + digitRunLen s (r + 1))))
  else none

/-- The part `\s(C|c)laims?\s\d+(...)?(,\swherein)?` of the primary
dependency regex starting at `p` (just after the optional preposition).
The greedy `s?` first tries to consume an `s` and backtracks to the empty
option when the remainder fails. -/
def depFromWS (s : List Char) (p : Nat) : Option Nat :=
  if wsAt s p && claimWordAt s (p + 1) then
    match (if charAt s (p + 6) == some 's' then depAfterClaims s (p + 7) else none) with
    | some e => some e
    | none => depAfterClaims s (p + 6)
  else none

/-- A match of the primary dependency regex
`(of|to|with|in)?\s(C|c)laims?\s\d+((\sto\s\d+)|(\sor\s(C|c)laim\s\d+))?(,\swherein)?`
(`src/models/corpus_models.py` line 195) at position `i`: the greedy
optional preposition tries `of`, `to`, `with`, `in`, then the empty
alternative, backtracking into the remainder. -/
def depMatchAt (s : List Char) (i : Nat) : Option Nat :=
  match (if litAt s i "of".toList then depFromWS s (i + 2) else none) with
  | some e => some e
  | none =>
    match (if litAt s i "to".toList then depFromWS s (i + 2) else none) with
    | some e => some e
    | none =>
      match (if litAt s i "with".toList then depFromWS s (i + 4) else none) with
      | some e => some e
      | none =>
        match (if litAt s i "in".toList then depFromWS s (i + 2) else none) with
        | some e => some e
        | none => depFromWS s i

/-- `re.search`: try positions `i, i + 1, ...` and return the first match
as a `(start, end)` pair.  The fuel bounds the recursion; positions up to
and including the text's length are scanned. -/
def reSearchAux (f : Nat → Option Nat) : Nat → Nat → Option (Nat × Nat)
  | _, 0 => none
  | i, fuel + 1 =>
    match f i with
    | some e => some (i, e)
    | none => reSearchAux f (i + 1) fuel

/-- Leftmost match of the primary dependency regex. -/
def depSearch (s : List Char) : Option (Nat × Nat) :=
  reSearchAux (depMatchAt s) 0 (s.length + 1)

/-- The common tail `\s(C|c)laims?(,\swherein)?` of the secondary
dependency regex, starting at `p` (just after `preceding`/`previous`): the
greedy `s?` is consumed when present, after which only optional parts
remain. -/
def preCont (s : List Char) (p : Nat) : Option Nat :=
  if wsAt s p && claimWordAt s (p + 1) then
    some (depWhereinOpt s (if charAt s (p + 6) == some 's' then p + 7 else p + 6))
  else none

/-- A match of the secondary dependency regex
`\s(preceding|previous)\s(C|c)laims?(,\swherein)?`
(`src/models/corpus_models.py` line 202) at position `i`: leading
whitespace, then the `preceding`/`previous` alternatives in order, each
followed by the common tail. -/
def preMatchAt (s : List Char) (i : Nat) : Option Nat :=
  if wsAt s i then
    match (if litAt s (i + 1) "preceding".toList then preCont s (i + 10) else none) with
    | some e => some e
    | none => if litAt s (i + 1) "previous".toList then preCont s (i + 9) else none
  else none

/-- Leftmost match of the secondary (`preceding`/`previous`) regex. -/
def preSearch (s : List Char) : Option (Nat × Nat) :=
  reSearchAux (preMatchAt s) 0 (s.length + 1)

/-- Python slice `s[a:b]`. -/
def pySlice (s : List Char) (a b : Nat) : List Char :=
  (s.drop a).take (b - a)

/-- `re.search('\d+', g)`: the first maximal digit run of `g` (`none` when
`g` has no digit). -/
def firstDigitRun : List Char → Option (List Char)
  | [] => none
  | c :: cs =>
    if c.isDigit then some ((c :: cs).takeWhile Char.isDigit)
    else firstDigitRun cs

/-- `Claim.detect_dependency` (`src/models/corpus_models.py` lines
193-209): on a primary match, the first digit sequence of the matched group
as an integer (a primary match always contains a digit, so the `.getD []`
default is never reached); otherwise 1 on a secondary match; otherwise 0. -/
def detect_dependency (s : List Char) : Nat :=
  match depSearch s with
  | some (i, e) => parseDigits ((firstDigitRun (pySlice s i e)).getD [])
  | none =>
    match preSearch s with
    | some _ => 1
    | none => 0

/-- `Claim.get_pos` (`src/models/corpus_models.py` lines 141-145): the
external `nltk.pos_tag` tagger (taken as a parameter) is applied and its
output returned unchanged. -/
def get_pos (tagger : List String → List (String × String))
    (words : List String) : List (String × String) :=
  tagger words

/-- `BaseTextBlock.set_pos` (`src/patentdata/models/basemodels.py` lines
93-102): tag with the external tagger, then hard-set every `comprising`
token's tag to `VBG`. -/
def set_pos (tagger : List String → List (String × String))
    (words : List String) : List (String × String) :=
  (tagger words).map (fun wp => if wp.1 != "comprising" then wp else ("comprising", "VBG"))

/-- One top-level item of the chunk parse result (`cp.parse(self.pos)`):
either an `NP` chunk subtree with its tagged leaves, or an ungrouped tagged
token.  The chunking grammar produces flat chunks, so every `NP` subtree is
a top-level child of the parse tree. -/
inductive PItem where
  | chunk (leaves : List (String × String))
  | leaf (tok : String × String)
deriving Repr, DecidableEq

/-- The tagged tokens of the parse result, in original order. -/
def leavesOf (tree : List PItem) : List (String × String) :=
  tree.flatMap (fun it =>
    match it with
    | PItem.chunk ls => ls
    | PItem.leaf l => [l])

/-- The canonical string of a chunk (`src/models/corpus_models.py` line
253): `" ".join([leaf[0] for leaf in st.leaves() if leaf[1] != ("DT" or
"PRP$")])`.  In Python the expression `("DT" or "PRP$")` evaluates to
`"DT"`, so the comparison excludes only tokens tagged `DT`. -/
def npString (leaves : List (String × String)) : String :=
  String.intercalate " " ((leaves.filter (fun leaf => leaf.2 != "DT")).map Prod.fst)

/-- The canonical string as the specification words it (refinement
comparison target for `npString`): join the leaf texts excluding tokens
tagged `DT` and tokens tagged `PRP$`. -/
def npStringSpec (leaves : List (String × String)) : String :=
  String.intercalate " "
    ((leaves.filter (fun leaf => leaf.2 != "DT" && leaf.2 != "PRP$")).map Prod.fst)

/-- Modelled from the spec: `utils.ends_with` (the `utils` module is not
among the repository sources; `Claim.label_nounphrases` calls
`utils.ends_with(np_string, np)` at line 258).  Per the spec this is a
word-boundary-aware "ends with": the new canonical string matches an
existing key when the key equals it or the key ends with a space followed
by it. -/
def ends_with (new key : String) : Bool :=
  key == new || (' ' :: new.toList).isSuffixOf key.toList

/-- Python `dict.get` on the insertion-ordered mapping, modelled as an
association list with unique keys. -/
def dictGet : List (String × Nat) → String → Option Nat
  | [], _ => none
  | (k, v) :: rest, key => if k == key then some v else dictGet rest key

/-- Python truthiness of an optional integer (`if not np_id`, `if number`,
`if dependency`): `None` and `0` are falsy. -/
def truthyOptNat : Option Nat → Bool
  | none => false
  | some v => v != 0

/-- The identity-resolution step of `Claim.label_nounphrases`
(`src/models/corpus_models.py` lines 254-263) for one chunk's canonical
string: reuse the id found by `mapping_dict.get` when it is truthy; else
reuse the id of the first existing key (in insertion order) that
`ends_with` accepts (that key is present, so the `.getD 0` default of the
Python indexing `mapping_dict[...]` is never reached); else insert the
string with the fresh id `len(mapping_dict) + 1`. -/
def resolveNP (m : List (String × Nat)) (np : String) : Nat × List (String × Nat) :=
  if truthyOptNat (dictGet m np) then ((dictGet m np).getD 0, m)
  else
    match (m.map Prod.fst).filter (fun k => ends_with np k) with
    | k :: _ => ((dictGet m k).getD 0, m)
    | [] => (m.length + 1, m ++ [(np, m.length + 1)])

/-- Python `dict.get(i, "")` on `pos_to_np`, whose keys are top-level chunk
indices; `none` models the empty-string default. -/
def posGet : List (Nat × Nat) → Nat → Option Nat
  | [], _ => none
  | (k, v) :: rest, key => if k == key then some v else posGet rest key

/-- The loop over `subtrees` in `Claim.label_nounphrases` (lines 250-264):
fold the resolution step over the chunks (each paired with its top-level
index), building the mapping and `pos_to_np`. -/
def processChunks : List (Nat × List (String × String)) → List (String × Nat) →
    List (Nat × Nat) → List (String × Nat) × List (Nat × Nat)
  | [], m, p => (m, p)
  | (i, ls) :: rest, m, p =>
    let r := resolveNP m (npString ls)
    processChunks rest r.2 (p ++ [(i, r.1)])

/-- The `NP` chunks of the parse result, each with its top-level index
(`st.parent_index()`). -/
def chunksOf (tree : List PItem) : List (Nat × List (String × String)) :=
  tree.enum.filterMap (fun it =>
    match it.2 with
    | PItem.chunk ls => some (it.1, ls)
    | PItem.leaf _ => none)

/-- `Claim.label_nounphrases` (`src/models/corpus_models.py` lines
234-277): resolve every chunk's canonical string to an id, then flatten the
parse result back into original token order as `(token, tag, np-id)`
triples, tokens outside every chunk getting the empty marker (`none`). -/
def label_nounphrases (tree : List PItem) :
    List (String × String × Option Nat) × List (String × Nat) :=
  let mp := processChunks (chunksOf tree) [] []
  let flat := tree.enum.flatMap (fun it =>
    match it.2 with
    | PItem.chunk ls => ls.map (fun l => (l.1, l.2, posGet mp.2 it.1))
    | PItem.leaf l => [(l.1, l.2, posGet mp.2 it.1)])
  (flat, mp.1)

/-- The stored number/dependency outcome of `Claim.__init__`. -/
structure InitResult where
  number : Option Nat
  numberWarning : Bool
  dependency : Nat
  dependencyWarning : Bool
deriving Repr, DecidableEq

/-- The number/dependency logic of `Claim.__init__`
(`src/models/corpus_models.py` lines 101-125).  `if number:` and
`if dependency:` are Python truthiness tests, failed by both `None` and
`0`; the mismatch warning is only printed inside the truthy branch.
`detect_dependency` runs on the text already cleaned by `get_number`. -/
def claim_init (text : List Char) (number dependency : Option Nat) : InitResult :=
  let pr := get_number text
  let storedN := if truthyOptNat number then number else pr.1
  let warnN := truthyOptNat number && number != pr.1
  let pd := detect_dependency pr.2
  let storedD := if truthyOptNat dependency then dependency.getD 0 else pd
  let warnD := truthyOptNat dependency && dependency != some pd
  ⟨storedN, warnN, storedD, warnD⟩

/-- The ends of the matches in `ms` are bounded below by `a` and
nondecreasing (for `finditer`'s output this holds because each match ends
strictly after it starts and scanning resumes at the previous end). -/
def EndsMono (a : Nat) : List (Nat × Nat) → Prop
  | [] => True
  | (_, e) :: ms => a ≤ e ∧ EndsMono e ms

/-- End offset of the last match of the list, `a` when there is none. -/
def lastMatchEnd (a : Nat) : List (Nat × Nat) → Nat
  | [] => a
  | (_, e) :: ms => lastMatchEnd e ms

/-! ## Simple evaluations and counterexamples -/

/-- C1: the claim says the canonical string excludes both `DT`- and
`PRP$`-tagged tokens.  The code's condition `leaf[1] != ("DT" or "PRP$")`
only excludes `DT`: for the chunk `[("his", "PRP$"), ("device", "NN")]` the
canonical string recorded in the mapping is `"his device"`, keeping the
`PRP$` token, where the specification's join (`npStringSpec`) gives
`"device"`. -/
theorem c1_prp_not_excluded :
    (label_nounphrases [PItem.chunk [("his", "PRP$"), ("device", "NN")]]).2
      = [("his device", 1)] ∧
    npString [("his", "PRP$"), ("device", "NN")] = "his device" ∧
    npStringSpec [("his", "PRP$"), ("device", "NN")] = "device" ∧
    ("his device" : String) ≠ "device" :=
  ⟨rfl, rfl, rfl, by decide⟩

/-- C2, counterexample: `Claim.get_pos` applies no override, so with a
tagger that tags `comprising` as `NN`, the claim's part-of-speech output
keeps `NN`, not `VBG`. -/
theorem c2_counterexample :
    get_pos (fun ws => ws.map (fun w => (w, "NN"))) ["comprising"]
      = [("comprising", "NN")] ∧ ("NN" : String) ≠ "VBG" :=
  ⟨rfl, by decide⟩

/-- C2, amended: `BaseTextBlock.set_pos` does force the tag: every pair of
its output whose word is `comprising` carries the tag `VBG`, whatever the
tagger returned. -/
theorem c2_set_pos_forces_vbg (tagger : List String → List (String × String))
    (words : List String) (w t : String)
    (hmem : (w, t) ∈ set_pos tagger words) (hw : w = "comprising") :
    t = "VBG" := by
  subst hw
  unfold set_pos at hmem
  obtain ⟨wp, _, heq⟩ := List.mem_map.mp hmem
  rcases hb : (wp.1 != "comprising") with _ | _
  · simp [hb] at heq
    simp_all
  · simp [hb] at heq
    simp_all

/-- Witness for `c2_set_pos_forces_vbg` at a concrete tagger and word
list. -/
theorem c2_witness :
    ("VBG" : String) = "VBG" ∧
    ("comprising", "VBG") ∈ set_pos (fun ws => ws.map (fun w => (w, "NN"))) ["comprising"] :=
  have hm : ("comprising", "VBG")
      ∈ set_pos (fun ws => ws.map (fun w => (w, "NN"))) ["comprising"] := by decide
  ⟨c2_set_pos_forces_vbg _ _ _ _ hm rfl, hm⟩

/-- C3, counterexample: for the text `"abc"` (no delimiter match) the
segment list is empty, so the concatenation of segment texts is empty and
does not reproduce the text. -/
theorem c3_counterexample :
    concatTexts (split_into_features ("abc".toList)) = [] ∧ "abc".toList ≠ [] :=
  ⟨rfl, by decide⟩

/-- C6, counterexample: the primary dependency regex requires a whitespace
character before `claims`, so the text `"claims 2 to 5"` (which contains
the phrase at position 0) matches neither pattern and yields 0, not 2. -/
theorem c6_counterexample :
    detect_dependency ("claims 2 to 5".toList) = 0 ∧ (0 : Nat) ≠ 2 :=
  ⟨rfl, by decide⟩

/-- C7, counterexample: `if dependency:` is falsy for a supplied dependency
of 0, so for a text whose parsed dependency is 2 the parsed value is stored
and no warning is emitted, where the claim promises the supplied 0 and a
warning. -/
theorem c7_counterexample :
    (claim_init ("1. a of claim 2.".toList) none (some 0)).dependency = 2 ∧
    (claim_init ("1. a of claim 2.".toList) none (some 0)).dependencyWarning = false ∧
    (2 : Nat) ≠ 0 :=
  ⟨rfl, rfl, by decide⟩

/-- C7, amended: a supplied nonzero number or dependency always wins and
warns exactly when it differs from the parsed value; a supplied dependency
of 0 fails Python's truthiness test, so the parsed value is stored and no
warning is emitted. -/
theorem c7_truthy_supplied_wins (text : List Char) (n d : Nat)
    (hn : n ≠ 0) (hd : d ≠ 0) :
    (claim_init text (some n) (some d)).number = some n ∧
    ((claim_init text (some n) (some d)).numberWarning = true
      ↔ some n ≠ (get_number text).1) ∧
    (claim_init text (some n) (some d)).dependency = d ∧
    ((claim_init text (some n) (some d)).dependencyWarning = true
      ↔ d ≠ detect_dependency (get_number text).2) ∧
    (claim_init text (some n) (some 0)).dependency
      = detect_dependency (get_number text).2 ∧
    (claim_init text (some n) (some 0)).dependencyWarning = false := by
  simp [claim_init, truthyOptNat, hn, hd, bne_iff_ne]

/-- Witness for `c7_truthy_supplied_wins` at concrete text and values. -/
theorem c7_witness :
    (claim_init ("1. a of claim 2.".toList) (some 5) (some 3)).number = some 5 ∧
    ((claim_init ("1. a of claim 2.".toList) (some 5) (some 3)).numberWarning = true
      ↔ some 5 ≠ (get_number ("1. a of claim 2.".toList)).1) ∧
    (claim_init ("1. a of claim 2.".toList) (some 5) (some 3)).dependency = 3 ∧
    ((claim_init ("1. a of claim 2.".toList) (some 5) (some 3)).dependencyWarning = true
      ↔ 3 ≠ detect_dependency (get_number ("1. a of claim 2.".toList)).2) ∧
    (claim_init ("1. a of claim 2.".toList) (some 5) (some 0)).dependency
      = detect_dependency (get_number ("1. a of claim 2.".toList)).2 ∧
    (claim_init ("1. a of claim 2.".toList) (some 5) (some 0)).dependencyWarning = false :=
  c7_truthy_supplied_wins ("1. a of claim 2.".toList) 5 3 (by decide) (by decide)

/-! ## Position and bound lemmas for the matchers -/

/-- A defined character position lies inside the text. -/
lemma charAt_lt_length {s : List Char} {i : Nat} {c : Char}
    (h : charAt s i = some c) : i < s.length := by
  unfold charAt at h
  obtain ⟨h1, -⟩ := List.getElem?_eq_some_iff.mp h
  exact h1

/-- Boolean form of `charAt_lt_length`. -/
lemma charAt_beq_lt {s : List Char} {i : Nat} {c : Char}
    (h : (charAt s i == some c) = true) : i < s.length :=
  charAt_lt_length (by simpa using h)

/-- A nonempty literal occurring at `i` ends inside the text. -/
lemma litAt_le_length {s : List Char} {lit : List Char} {i : Nat}
    (hne : lit ≠ []) (h : litAt s i lit = true) : i + lit.length ≤ s.length := by
  induction lit generalizing i with
  | nil => exact absurd rfl hne
  | cons c cs ih =>
    simp only [litAt, Bool.and_eq_true] at h
    obtain ⟨hc, hrest⟩ := h
    rcases cs with _ | ⟨d, ds⟩
    · have := charAt_beq_lt hc
      simp only [List.length_cons, List.length_nil]
      omega
    · have := ih (by simp) hrest
      simp only [List.length_cons] at this ⊢
      omega

/-- The whitespace run starting inside the text ends inside the text. -/
lemma wsRunLen_le {s : List Char} {i : Nat} (h : i ≤ s.length) :
    i + wsRunLen s i ≤ s.length := by
  have h1 : ((s.drop i).takeWhile isPySpace).length ≤ (s.drop i).length :=
    (List.takeWhile_sublist _).length_le
  unfold wsRunLen
  rw [List.length_drop] at h1
  omega

/-- A dollar position is at most the text's length. -/
lemma isDollarPos_le {s : List Char} {k : Nat} (h : isDollarPos s k = true) :
    k ≤ s.length := by
  unfold isDollarPos at h
  simp only [Bool.or_eq_true, Bool.and_eq_true, beq_iff_eq] at h
  rcases h with h | ⟨h, -⟩ <;> omega

/-- `wsStarDollar` ends at or after its start and inside the text. -/
lemma wsStarDollar_bounds {s : List Char} {j : Nat} :
    ∀ {k e : Nat}, wsStarDollar s j k = some e → j ≤ e ∧ e ≤ s.length := by
  intro k
  induction k with
  | zero =>
    intro e h
    unfold wsStarDollar at h
    split at h
    · injection h with he
      subst he
      exact ⟨Nat.le_refl j, isDollarPos_le (by assumption)⟩
    · exact absurd h (by simp)
  | succ k ih =>
    intro e h
    unfold wsStarDollar at h
    split at h
    · injection h with he
      subst he
      exact ⟨by omega, isDollarPos_le (by assumption)⟩
    · obtain ⟨h1, h2⟩ := ih h
      exact ⟨by omega, h2⟩

/-- The first alternative's match starts before its end and ends inside the
text. -/
lemma featAlt1_bounds {s : List Char} {i e : Nat} (h : featAlt1 s i = some e) :
    i < e ∧ e ≤ s.length := by
  simp only [featAlt1] at h
  split at h
  case isTrue hc =>
    have hi : i < s.length := charAt_beq_lt hc
    have hw : i + 1 + wsRunLen s (i + 1) ≤ s.length := wsRunLen_le (by omega)
    split at h
    case isTrue hand =>
      have hl := litAt_le_length (by decide) hand
      have hlen : ("and".toList).length = 3 := rfl
      injection h with he
      omega
    case isFalse _ =>
      injection h with he
      omega
  case isFalse _ => exact absurd h (by simp)

/-- The second alternative's match starts before its end and ends inside
the text. -/
lemma featAlt2_bounds {s : List Char} {i e : Nat} (h : featAlt2 s i = some e) :
    i < e ∧ e ≤ s.length := by
  unfold featAlt2 at h
  split at h
  case isTrue hc =>
    split at h
    case isTrue h1 =>
      simp only [Bool.and_eq_true] at h1
      have := charAt_beq_lt h1.2
      injection h with he
      omega
    case isFalse _ =>
      split at h
      case isTrue h2 =>
        simp only [Bool.and_eq_true] at h2
        have := charAt_beq_lt h2.2
        injection h with he
        omega
      case isFalse _ =>
        split at h
        case isTrue h3 =>
          simp only [Bool.and_eq_true] at h3
          have := charAt_beq_lt h3.2
          injection h with he
          omega
        case isFalse _ =>
          split at h
          case isTrue h4 =>
            have := charAt_beq_lt h4
            injection h with he
            omega
          case isFalse _ => exact absurd h (by simp)
  case isFalse _ => exact absurd h (by simp)

/-- The third alternative's match starts before its end and ends inside the
text. -/
lemma featAlt3_bounds {s : List Char} {i e : Nat} (h : featAlt3 s i = some e) :
    i < e ∧ e ≤ s.length := by
  unfold featAlt3 at h
  split at h
  case isTrue hc =>
    have hi : i < s.length := charAt_beq_lt hc
    have hw : i + 1 + wsRunLen s (i + 1) ≤ s.length := wsRunLen_le (by omega)
    injection h with he
    omega
  case isFalse _ => exact absurd h (by simp)

/-- The fourth alternative's match starts before its end and ends inside
the text. -/
lemma featAlt4_bounds {s : List Char} {i e : Nat} (h : featAlt4 s i = some e) :
    i < e ∧ e ≤ s.length := by
  unfold featAlt4 at h
  split at h
  case isTrue hc =>
    obtain ⟨h1, h2⟩ := wsStarDollar_bounds h
    exact ⟨by omega, h2⟩
  case isFalse _ => exact absurd h (by simp)

/-- Every match of the feature-split regex starts before its end and ends
inside the text. -/
lemma featMatchAt_bounds {s : List Char} {i e : Nat}
    (h : featMatchAt s i = some e) : i < e ∧ e ≤ s.length := by
  unfold featMatchAt at h
  cases h1 : featAlt1 s i with
  | some v => rw [h1] at h; injection h with he; subst he; exact featAlt1_bounds h1
  | none =>
    rw [h1] at h
    cases h2 : featAlt2 s i with
    | some v => rw [h2] at h; injection h with he; subst he; exact featAlt2_bounds h2
    | none =>
      rw [h2] at h
      cases h3 : featAlt3 s i with
      | some v => rw [h3] at h; injection h with he; subst he; exact featAlt3_bounds h3
      | none => rw [h3] at h; exact featAlt4_bounds h

/-- `EndsMono` weakens to a smaller lower bound. -/
lemma endsMono_weaken {ms : List (Nat × Nat)} :
    ∀ {a b : Nat}, b ≤ a → EndsMono a ms → EndsMono b ms := by
  induction ms with
  | nil => intro a b _ _; trivial
  | cons m ms _ =>
    intro a b hba h
    cases m
    exact ⟨Nat.le_trans hba h.1, h.2⟩

/-- The scan of `finditerAux` only produces matches ending at or after the
current position, in nondecreasing order of ends. -/
lemma finditerAux_endsMono (s : List Char) :
    ∀ (fuel i : Nat), EndsMono i (finditerAux s i fuel) := by
  intro fuel
  induction fuel with
  | zero => intro i; trivial
  | succ fuel ih =>
    intro i
    rw [finditerAux]
    split
    · rename_i hi
      cases hm : featMatchAt s i with
      | some e =>
        exact ⟨Nat.le_of_lt (featMatchAt_bounds hm).1, ih e⟩
      | none => exact endsMono_weaken (Nat.le_succ i) (ih (i + 1))
    · trivial

/-- The last match end is at least the lower bound. -/
lemma lastMatchEnd_ge : ∀ {ms : List (Nat × Nat)} {a : Nat},
    EndsMono a ms → a ≤ lastMatchEnd a ms := by
  intro ms
  induction ms with
  | nil => intro a _; exact Nat.le_refl a
  | cons m ms ih =>
    intro a h
    cases m
    exact Nat.le_trans h.1 (ih h.2)

/-- Unfolding lemma: the text of a cons. -/
lemma concatTexts_cons (f : Feature) (fs : List Feature) :
    concatTexts (f :: fs) = f.text ++ concatTexts fs := by
  simp [concatTexts]

/-- Concatenating the built segments' texts gives the slice of the text
from the starting offset to the last match end. -/
lemma buildFeatures_concat (s : List Char) :
    ∀ (ms : List (Nat × Nat)) (a : Nat), EndsMono a ms →
      concatTexts (buildFeatures s a ms) = (s.drop a).take (lastMatchEnd a ms - a) := by
  intro ms
  induction ms with
  | nil =>
    intro a _
    simp [buildFeatures, concatTexts, lastMatchEnd]
  | cons m ms ih =>
    intro a h
    cases m with
    | mk i e =>
      obtain ⟨hae, hmono⟩ := h
      have hle : e ≤ lastMatchEnd e ms := lastMatchEnd_ge hmono
      show concatTexts (⟨a, e, (s.drop a).take (e - a)⟩ :: buildFeatures s e ms)
        = (s.drop a).take (lastMatchEnd e ms - a)
      rw [concatTexts_cons, ih e hmono]
      have harith : lastMatchEnd e ms - a = (e - a) + (lastMatchEnd e ms - e) := by omega
      rw [harith, List.take_add, List.drop_drop]
      have : a + (e - a) = e := by omega
      rw [this]

/-- The first built segment starts at the starting offset. -/
lemma buildFeatures_head_start (s : List Char) :
    ∀ {ms : List (Nat × Nat)} {a : Nat} {f : Feature},
      (buildFeatures s a ms).head? = some f → f.startindex = a := by
  intro ms
  cases ms with
  | nil => intro a f h; simp [buildFeatures] at h
  | cons m ms =>
    intro a f h
    cases m
    simp only [buildFeatures, List.head?_cons, Option.some.injEq] at h
    rw [← h]

/-- Consecutive built segments are contiguous: each segment starts where
the previous one ends. -/
lemma buildFeatures_chain (s : List Char) :
    ∀ {ms : List (Nat × Nat)} {a : Nat} {k : Nat} {f g : Feature},
      (buildFeatures s a ms)[k]? = some f → (buildFeatures s a ms)[k + 1]? = some g →
      g.startindex = f.endindex := by
  intro ms
  induction ms with
  | nil => intro a k f g hf _; simp [buildFeatures] at hf
  | cons m ms ih =>
    intro a k f g hf hg
    cases m with
    | mk i e =>
      simp only [buildFeatures] at hf hg
      cases k with
      | zero =>
        simp only [List.getElem?_cons_zero, Option.some.injEq] at hf
        have hh : (buildFeatures s e ms).head? = some g := by
          rw [List.head?_eq_getElem?]
          simpa using hg
        rw [buildFeatures_head_start s hh, ← hf]
      | succ k =>
        exact ih (by simpa using hf) (by simpa using hg)

/-- The last built segment's end is the last match end. -/
lemma buildFeatures_lastEnd (s : List Char) :
    ∀ {ms : List (Nat × Nat)} {a : Nat} {f : Feature},
      (buildFeatures s a ms).getLast? = some f → f.endindex = lastMatchEnd a ms := by
  intro ms
  induction ms with
  | nil => intro a f h; simp [buildFeatures] at h
  | cons m ms ih =>
    intro a f h
    cases m with
    | mk i e =>
      cases ms with
      | nil =>
        simp only [buildFeatures, List.getLast?_singleton, Option.some.injEq] at h
        rw [← h]
        rfl
      | cons m2 ms2 =>
        cases m2 with
        | mk i2 e2 =>
          have hrw : buildFeatures s a ((i, e) :: (i2, e2) :: ms2)
              = ⟨a, e, (s.drop a).take (e - a)⟩ ::
                ⟨e, e2, (s.drop e).take (e2 - e)⟩ :: buildFeatures s e2 ms2 := rfl
          rw [hrw, List.getLast?_cons_cons] at h
          exact ih h

/-- C10: the feature segments are contiguous and gap-free: the first starts
at offset 0, each subsequent segment starts at the previous segment's end,
the last segment ends at the last delimiter match's end, and the
concatenation of all segment texts is exactly the prefix of the claim text
up to that offset (so text after the last delimiter match is not covered). -/
theorem c10_segments_contiguous (s : List Char) :
    (∀ f, (split_into_features s).head? = some f → f.startindex = 0) ∧
    (∀ k f g, (split_into_features s)[k]? = some f →
      (split_into_features s)[k + 1]? = some g → g.startindex = f.endindex) ∧
    (∀ f, (split_into_features s).getLast? = some f →
      f.endindex = lastMatchEnd 0 (finditer s)) ∧
    concatTexts (split_into_features s) = s.take (lastMatchEnd 0 (finditer s)) := by
  refine ⟨?_, ?_, ?_, ?_⟩
  · intro f h
    exact buildFeatures_head_start s h
  · intro k f g hf hg
    exact buildFeatures_chain s hf hg
  · intro f h
    exact buildFeatures_lastEnd s h
  · have h := buildFeatures_concat s (finditer s) 0 (finditerAux_endsMono s (s.length + 1) 0)
    simpa [split_into_features] using h

/-- Witness for `c10_segments_contiguous` at the concrete text `"a; b."`,
whose segments are `[0,3) "a; "` and `[3,5) "b."`. -/
theorem c10_witness :
    (Feature.mk 0 3 "a; ".toList).startindex = 0 ∧
    (Feature.mk 3 5 "b.".toList).startindex = (Feature.mk 0 3 "a; ".toList).endindex ∧
    (Feature.mk 3 5 "b.".toList).endindex = lastMatchEnd 0 (finditer ("a; b.".toList)) ∧
    concatTexts (split_into_features ("a; b.".toList))
      = ("a; b.".toList).take (lastMatchEnd 0 (finditer ("a; b.".toList))) := by
  obtain ⟨h1, h2, h3, h4⟩ := c10_segments_contiguous ("a; b.".toList)
  exact ⟨h1 _ rfl, h2 0 _ _ rfl rfl, h3 _ rfl, h4⟩

/-- C3, amended: concatenating the segments' texts, in order, reproduces
the prefix of the claim text up to the last delimiter match's end (the full
text exactly when the text ends at a delimiter match, e.g. with a terminal
period); the offsets partition that prefix with no gaps or overlaps (first
start 0, each start equal to the previous end); text containing no
delimiter match yields no segments at all. -/
theorem c3_concat_covers_matched (s : List Char) :
    (lastMatchEnd 0 (finditer s) = s.length →
      concatTexts (split_into_features s) = s) ∧
    concatTexts (split_into_features s) = s.take (lastMatchEnd 0 (finditer s)) ∧
    (∀ f, (split_into_features s).head? = some f → f.startindex = 0) ∧
    (∀ k f g, (split_into_features s)[k]? = some f →
      (split_into_features s)[k + 1]? = some g → g.startindex = f.endindex) ∧
    (finditer s = [] → split_into_features s = []) := by
  have hc := buildFeatures_concat s (finditer s) 0 (finditerAux_endsMono s (s.length + 1) 0)
  refine ⟨?_, ?_, ?_, ?_, ?_⟩
  · intro hfull
    have := hc
    rw [hfull] at this
    simpa [split_into_features, List.take_of_length_le] using this
  · simpa [split_into_features] using hc
  · intro f h
    exact buildFeatures_head_start s h
  · intro k f g hf hg
    exact buildFeatures_chain s hf hg
  · intro h
    simp [split_into_features, h, buildFeatures]

/-- Witness for `c3_concat_covers_matched` at the concrete text
`"heating a blank; and cooling the blank."`, which ends at a delimiter
match, so the concatenation reproduces the whole text. -/
theorem c3_witness :
    concatTexts (split_into_features ("heating a blank; and cooling the blank.".toList))
      = "heating a blank; and cooling the blank.".toList := by
  exact (c3_concat_covers_matched _).1 rfl

/-! ## Claim-number extraction (C5) -/

/-- Digit characters are digits. -/
lemma digitChar_isDigit {d : Nat} (h : d < 10) : (digitChar d).isDigit = true := by
  interval_cases d <;> decide

/-- Converting a digit character back to its value. -/
lemma digitChar_toNat {d : Nat} (h : d < 10) : (digitChar d).toNat - 48 = d := by
  interval_cases d <;> decide

/-- `parseDigits` step on an appended character. -/
lemma parseDigits_append (l : List Char) (c : Char) :
    parseDigits (l ++ [c]) = 10 * parseDigits l + (c.toNat - 48) := by
  simp [parseDigits, List.foldl_append]

/-- Parsing the decimal representation recovers the number. -/
lemma parseDigits_natChars (n : Nat) : parseDigits (natChars n) = n := by
  unfold natChars
  have key : ∀ ds : List Nat, (∀ d ∈ ds, d < 10) →
      parseDigits ((ds.map digitChar).reverse) = Nat.ofDigits 10 ds := by
    intro ds
    induction ds with
    | nil =>
      intro _
      simp [parseDigits, Nat.ofDigits_nil]
    | cons d ds ih =>
      intro hall
      have hd : d < 10 := hall d (by simp)
      simp only [List.map_cons, List.reverse_cons]
      rw [parseDigits_append, ih (fun x hx => hall x (by simp [hx])), digitChar_toNat hd,
        Nat.ofDigits_cons]
      ring
  rw [key (Nat.digits 10 n) (fun d hd => Nat.digits_lt_base (by norm_num) hd),
    Nat.ofDigits_digits]

/-- A positive number has a nonempty representation. -/
lemma natChars_ne_nil {n : Nat} (h : 0 < n) : natChars n ≠ [] := by
  unfold natChars
  simp only [ne_eq, List.reverse_eq_nil_iff, List.map_eq_nil_iff]
  exact Nat.digits_ne_nil_iff_ne_zero.mpr (by omega)

/-- Every character of the representation is a digit. -/
lemma natChars_all_digits {n : Nat} : ∀ c ∈ natChars n, c.isDigit = true := by
  intro c hc
  unfold natChars at hc
  rw [List.mem_reverse] at hc
  obtain ⟨d, hd, rfl⟩ := List.mem_map.mp hc
  exact digitChar_isDigit (Nat.digits_lt_base (by norm_num) hd)

/-- `takeWhile` passes over a block that satisfies the predicate. -/
lemma takeWhile_all_append {p : Char → Bool} :
    ∀ (l1 l2 : List Char), (∀ c ∈ l1, p c = true) →
      (l1 ++ l2).takeWhile p = l1 ++ l2.takeWhile p := by
  intro l1
  induction l1 with
  | nil => simp
  | cons c cs ih =>
    intro l2 hall
    have hc : p c = true := hall c (by simp)
    simp [List.takeWhile_cons, hc, ih l2 (fun x hx => hall x (by simp [hx]))]

/-- `dropWhile` passes over a block that satisfies the predicate. -/
lemma dropWhile_all_append {p : Char → Bool} :
    ∀ (l1 l2 : List Char), (∀ c ∈ l1, p c = true) →
      (l1 ++ l2).dropWhile p = l2.dropWhile p := by
  intro l1
  induction l1 with
  | nil => simp
  | cons c cs ih =>
    intro l2 hall
    have hc : p c = true := hall c (by simp)
    simp [List.dropWhile_cons, hc, ih l2 (fun x hx => hall x (by simp [hx]))]

/-- Elements of a `takeWhile` satisfy the predicate. -/
lemma mem_takeWhile_pred {p : Char → Bool} :
    ∀ {l : List Char} {x : Char}, x ∈ l.takeWhile p → p x = true := by
  intro l
  induction l with
  | nil => intro x hx; simp at hx
  | cons c cs ih =>
    intro x hx
    rw [List.takeWhile_cons] at hx
    by_cases hc : p c
    · rw [if_pos hc] at hx
      rcases List.mem_cons.mp hx with rfl | hx
      · exact hc
      · exact ih hx
    · rw [if_neg hc] at hx
      simp at hx

/-- On a text that begins with digits followed by a period, `numSearch`
matches at the start. -/
lemma numSearch_at_start {n : Nat} (hn : 0 < n) (rest : List Char) :
    numSearch (natChars n ++ '.' :: rest) = some (natChars n, rest) := by
  obtain ⟨c, cs, hcc⟩ : ∃ c cs, natChars n = c :: cs := by
    cases hx : natChars n with
    | nil => exact absurd hx (natChars_ne_nil hn)
    | cons c cs => exact ⟨c, cs, rfl⟩
  have hall : ∀ x ∈ c :: cs, Char.isDigit x = true := by
    rw [← hcc]
    exact natChars_all_digits
  rw [hcc, List.cons_append, numSearch]
  have hd : c.isDigit = true := hall c (by simp)
  rw [if_pos hd]
  have hdrop : (c :: (cs ++ '.' :: rest)).dropWhile Char.isDigit = '.' :: rest := by
    rw [← List.cons_append, dropWhile_all_append _ _ hall, List.dropWhile_cons_of_neg (by decide)]
  have htake : (c :: (cs ++ '.' :: rest)).takeWhile Char.isDigit = c :: cs := by
    rw [← List.cons_append, takeWhile_all_append _ _ hall, List.takeWhile_cons_of_neg (by decide)]
    simp
  rw [hdrop, htake]
  rfl

/-- On a text with no digit immediately followed by a period, `numSearch`
finds nothing. -/
lemma numSearch_none {s : List Char}
    (h : ∀ i, i < s.length →
      ¬((charAt s i).any Char.isDigit = true ∧ charAt s (i + 1) = some '.')) :
    numSearch s = none := by
  induction s with
  | nil => rfl
  | cons c cs ih =>
    have hcs : ∀ i, i < cs.length →
        ¬((charAt cs i).any Char.isDigit = true ∧ charAt cs (i + 1) = some '.') := by
      intro i hi
      have := h (i + 1) (by simp only [List.length_cons]; omega)
      simpa [charAt] using this
    rw [numSearch]
    by_cases hd : c.isDigit
    · rw [if_pos hd]
      cases hdrop : (c :: cs).dropWhile Char.isDigit with
      | nil => exact ih hcs
      | cons d tail =>
        by_cases hdot : d = '.'
        · exfalso
          subst hdot
          have hsplit : (c :: cs)
              = (c :: cs).takeWhile Char.isDigit ++ '.' :: tail := by
            rw [← hdrop, List.takeWhile_append_dropWhile]
          have hkpos : 0 < ((c :: cs).takeWhile Char.isDigit).length := by
            rw [List.takeWhile_cons_of_pos hd]
            simp
          set tw := (c :: cs).takeWhile Char.isDigit with htw
          set k := tw.length with hk
          have hlast : charAt (c :: cs) (k - 1) = tw[k - 1]? := by
            rw [hsplit]
            unfold charAt
            exact List.getElem?_append_left (by omega)
          have hdotpos : charAt (c :: cs) k = some '.' := by
            rw [hsplit]
            unfold charAt
            rw [List.getElem?_append_right (by omega)]
            simp
          have hlen : (c :: cs).length = k + 1 + tail.length := by
            rw [hsplit]
            simp
            omega
          have happ := h (k - 1) (by omega)
          apply happ
          constructor
          · obtain ⟨x, hx⟩ : ∃ x, tw[k - 1]? = some x := by
              have : k - 1 < tw.length := by omega
              exact ⟨tw[k - 1], List.getElem?_eq_some_iff.mpr ⟨this, rfl⟩⟩
            rw [hlast, hx]
            simp only [Option.any_some]
            exact mem_takeWhile_pred (htw ▸ List.getElem?_mem hx)
          · have : k - 1 + 1 = k := by omega
            rw [this]
            exact hdotpos
        · split
          · rename_i t heq
            rw [List.cons.injEq] at heq
            exact absurd heq.1 hdot
          · exact ih hcs
    · rw [if_neg hd]
      exact ih hcs

/-- C5: for a claim text beginning with `N.` (`N` a positive integer),
`get_number` returns the number `N` together with everything after the
matched digits-plus-period, trimmed of leading and trailing whitespace; on
a text containing no digits-followed-by-period pattern it returns no number
and the text unchanged. -/
theorem c5_get_number (N : Nat) (rest : List Char) (hN : 0 < N) (s : List Char)
    (hnd : ∀ i, i < s.length →
      ¬((charAt s i).any Char.isDigit = true ∧ charAt s (i + 1) = some '.')) :
    get_number (natChars N ++ '.' :: rest) = (some N, pyStrip rest) ∧
    get_number s = (none, s) := by
  constructor
  · unfold get_number
    rw [numSearch_at_start hN rest]
    show (some (parseDigits (natChars N)), pyStrip rest) = (some N, pyStrip rest)
    rw [parseDigits_natChars]
  · unfold get_number
    rw [numSearch_none hnd]

/-- Witness for `c5_get_number` at `N = 12`, remainder `"  A method "`, and
the pattern-free text `"abc"`. -/
theorem c5_witness :
    get_number (natChars 12 ++ '.' :: "  A method ".toList)
      = (some 12, pyStrip ("  A method ".toList)) ∧
    get_number ("abc".toList) = (none, "abc".toList) :=
  c5_get_number 12 ("  A method ".toList) (by norm_num) ("abc".toList) (by decide)

/-! ## Noun-phrase identity resolution (C4, C8, C9) -/

/-- A successful `dictGet` comes from an entry of the mapping. -/
lemma dictGet_mem : ∀ {m : List (String × Nat)} {k : String} {v : Nat},
    dictGet m k = some v → (k, v) ∈ m := by
  intro m
  induction m with
  | nil => intro k v h; simp [dictGet] at h
  | cons kv m ih =>
    intro k v h
    cases kv with
    | mk k0 v0 =>
      rw [dictGet] at h
      split at h
      · rename_i hk
        injection h with hv
        simp only [beq_iff_eq] at hk
        exact List.mem_cons.mpr (Or.inl (by rw [hk, hv]))
      · exact List.mem_cons.mpr (Or.inr (ih h))

/-- A key present in the mapping has a value. -/
lemma dictGet_of_mem_keys : ∀ {m : List (String × Nat)} {k : String},
    k ∈ m.map Prod.fst → ∃ v, dictGet m k = some v := by
  intro m
  induction m with
  | nil => intro k h; simp at h
  | cons kv m ih =>
    intro k h
    cases kv with
    | mk k0 v0 =>
      rw [dictGet]
      by_cases hk : (k0 == k) = true
      · exact ⟨v0, by rw [if_pos hk]⟩
      · have hmem : k ∈ m.map Prod.fst := by
          simp only [List.map_cons, List.mem_cons] at h
          rcases h with h | h
          · exact absurd (by simp [h]) hk
          · exact h
        obtain ⟨v, hv⟩ := ih hmem
        exact ⟨v, by rw [if_neg hk]; exact hv⟩

/-- Exact-match case of the resolution step: under the invariant that ids
count up from 1 (so no stored id is 0, and Python's `if not np_id` only
fires on a missing key), an existing key's id is reused and the mapping is
unchanged. -/
lemma resolveNP_exact {m : List (String × Nat)} {np : String} {v : Nat}
    (hwf : m.map Prod.snd = List.range' 1 m.length)
    (hv : dictGet m np = some v) : resolveNP m np = (v, m) := by
  have hvmem : v ∈ m.map Prod.snd := List.mem_map.mpr ⟨(np, v), dictGet_mem hv, rfl⟩
  rw [hwf, List.mem_range'] at hvmem
  obtain ⟨i, hi, hvi⟩ := hvmem
  have hv0 : v ≠ 0 := by omega
  unfold resolveNP
  rw [hv]
  simp [truthyOptNat, hv0]

/-- Suffix-match case of the resolution step: when the canonical string is
missing and some existing key (first in insertion order) matches by
`ends_with`, that key's id is reused and the mapping is unchanged. -/
lemma resolveNP_suffix {m : List (String × Nat)} {np : String} {k : String}
    {ks : List String} (hnone : dictGet m np = none)
    (hfil : (m.map Prod.fst).filter (fun k2 => ends_with np k2) = k :: ks) :
    ∃ id, dictGet m k = some id ∧ resolveNP m np = (id, m) := by
  have hkmem : k ∈ m.map Prod.fst := by
    have hk : k ∈ (m.map Prod.fst).filter (fun k2 => ends_with np k2) := by
      rw [hfil]
      exact List.mem_cons_self k ks
    exact List.mem_of_mem_filter hk
  obtain ⟨id, hid⟩ := dictGet_of_mem_keys hkmem
  refine ⟨id, hid, ?_⟩
  unfold resolveNP
  rw [hnone, hfil]
  simp [truthyOptNat, hid]

/-- Fresh case of the resolution step: no exact and no suffix match inserts
the canonical string with id `len(mapping_dict) + 1`. -/
lemma resolveNP_fresh {m : List (String × Nat)} {np : String}
    (hnone : dictGet m np = none)
    (hfil : (m.map Prod.fst).filter (fun k2 => ends_with np k2) = []) :
    resolveNP m np = (m.length + 1, m ++ [(np, m.length + 1)]) := by
  unfold resolveNP
  rw [hnone, hfil]
  simp [truthyOptNat]

/-- The resolution step leaves the mapping unchanged or appends one
entry. -/
lemma resolveNP_snd (m : List (String × Nat)) (np : String) :
    (resolveNP m np).2 = m ∨ (resolveNP m np).2 = m ++ [(np, m.length + 1)] := by
  unfold resolveNP
  split
  · left; rfl
  · split
    · left; rfl
    · right; rfl

/-- The resolved id is among the values of the updated mapping. -/
lemma resolveNP_fst_mem (m : List (String × Nat)) (np : String)
    (hwf : m.map Prod.snd = List.range' 1 m.length) :
    (resolveNP m np).1 ∈ ((resolveNP m np).2).map Prod.snd := by
  cases hg : dictGet m np with
  | some v =>
    rw [resolveNP_exact hwf hg]
    exact List.mem_map.mpr ⟨(np, v), dictGet_mem hg, rfl⟩
  | none =>
    cases hfil : (m.map Prod.fst).filter (fun k2 => ends_with np k2) with
    | cons k ks =>
      obtain ⟨id, hid, hres⟩ := resolveNP_suffix hg hfil
      rw [hres]
      exact List.mem_map.mpr ⟨(k, id), dictGet_mem hid, rfl⟩
    | nil =>
      rw [resolveNP_fresh hg hfil]
      simp

/-- The resolution step preserves the invariant that the mapping's values
are exactly `1, ..., size` in insertion order. -/
lemma resolveNP_wf {m : List (String × Nat)} {np : String}
    (hwf : m.map Prod.snd = List.range' 1 m.length) :
    ((resolveNP m np).2).map Prod.snd = List.range' 1 ((resolveNP m np).2).length := by
  rcases resolveNP_snd m np with h | h <;> rw [h]
  · exact hwf
  · simp only [List.map_append, List.length_append, List.map_cons, List.map_nil,
      List.length_cons, List.length_nil, hwf]
    rw [List.range'_concat]
    simp [Nat.add_comm]

/-- The chunk loop preserves the id invariant. -/
lemma processChunks_wf : ∀ (chunks : List (Nat × List (String × String)))
    (m : List (String × Nat)) (p : List (Nat × Nat)),
    m.map Prod.snd = List.range' 1 m.length →
    ((processChunks chunks m p).1).map Prod.snd
      = List.range' 1 ((processChunks chunks m p).1).length := by
  intro chunks
  induction chunks with
  | nil => intro m p h; exact h
  | cons c rest ih =>
    intro m p h
    cases c with
    | mk i ls => exact ih _ _ (resolveNP_wf h)

/-- A successful `posGet` comes from an entry of `pos_to_np`. -/
lemma posGet_mem : ∀ {p : List (Nat × Nat)} {i id : Nat},
    posGet p i = some id → (i, id) ∈ p := by
  intro p
  induction p with
  | nil => intro i id h; simp [posGet] at h
  | cons kv p ih =>
    intro i id h
    cases kv with
    | mk k0 v0 =>
      rw [posGet] at h
      split at h
      · rename_i hk
        injection h with hv
        simp only [beq_iff_eq] at hk
        exact List.mem_cons.mpr (Or.inl (by rw [hk, hv]))
      · exact List.mem_cons.mpr (Or.inr (ih h))

/-- Every id recorded in `pos_to_np` during the chunk loop is a value of
the final mapping. -/
lemma processChunks_pos_sub : ∀ (chunks : List (Nat × List (String × String)))
    (m : List (String × Nat)) (p : List (Nat × Nat)),
    m.map Prod.snd = List.range' 1 m.length →
    (∀ e ∈ p, e.2 ∈ m.map Prod.snd) →
    ∀ e ∈ (processChunks chunks m p).2,
      e.2 ∈ ((processChunks chunks m p).1).map Prod.snd := by
  intro chunks
  induction chunks with
  | nil => intro m p _ hp e he; exact hp e he
  | cons c rest ih =>
    intro m p hwf hp e he
    cases c with
    | mk i ls =>
      refine ih _ _ (resolveNP_wf hwf) ?_ e he
      intro e' he'
      rcases List.mem_append.mp he' with h | h
      · rcases resolveNP_snd m (npString ls) with hs | hs <;> rw [hs]
        · exact hp e' h
        · rw [List.map_append]
          exact List.mem_append.mpr (Or.inl (hp e' h))
      · have he2 : e' = (i, (resolveNP m (npString ls)).1) := by simpa using h
        rw [he2]
        exact resolveNP_fst_mem m (npString ls) hwf

/-- Projecting away the noun-phrase ids from the flattened triples gives
back the tagged tokens in original order, whatever `pos_to_np` holds. -/
lemma label_flat_proj : ∀ (tree : List PItem) (n : Nat) (pos : List (Nat × Nat)),
    ((tree.enumFrom n).flatMap (fun it =>
        match it.2 with
        | PItem.chunk ls => ls.map (fun l => (l.1, l.2, posGet pos it.1))
        | PItem.leaf l => [(l.1, l.2, posGet pos it.1)])).map (fun t => (t.1, t.2.1))
      = leavesOf tree := by
  intro tree
  induction tree with
  | nil => intro n pos; rfl
  | cons it tree ih =>
    intro n pos
    rw [List.enumFrom_cons, List.flatMap_cons, List.map_append, ih (n + 1) pos]
    cases it with
    | chunk ls =>
      show (ls.map fun l => (l.1, l.2, posGet pos n)).map (fun t => (t.1, t.2.1))
          ++ leavesOf tree = leavesOf (PItem.chunk ls :: tree)
      rw [List.map_map]
      show ls.map (fun l => (l.1, l.2)) ++ leavesOf tree = _
      simp [leavesOf]
    | leaf l =>
      show [(l.1, l.2)] ++ leavesOf tree = leavesOf (PItem.leaf l :: tree)
      simp [leavesOf]

/-- C8: `label_nounphrases` keeps every input token exactly once, in the
original order with its tag, and every triple's third component is either
the empty marker or an id recorded in the returned mapping. -/
theorem c8_tokens_preserved (tree : List PItem) :
    ((label_nounphrases tree).1).map (fun t => (t.1, t.2.1)) = leavesOf tree ∧
    (∀ t ∈ (label_nounphrases tree).1,
      t.2.2 = none ∨
      ∃ id, t.2.2 = some id ∧ id ∈ ((label_nounphrases tree).2).map Prod.snd) := by
  constructor
  · exact label_flat_proj tree 0 (processChunks (chunksOf tree) [] []).2
  · intro t ht
    have ht' : t ∈ (tree.enumFrom 0).flatMap (fun it =>
        match it.2 with
        | PItem.chunk ls =>
            ls.map (fun l => (l.1, l.2, posGet (processChunks (chunksOf tree) [] []).2 it.1))
        | PItem.leaf l =>
            [(l.1, l.2, posGet (processChunks (chunksOf tree) [] []).2 it.1)]) := ht
    obtain ⟨it, hit, htf⟩ := List.mem_flatMap.mp ht'
    have hval : t.2.2 = posGet (processChunks (chunksOf tree) [] []).2 it.1 := by
      rcases hcase : it.2 with ls | l
      · rw [hcase] at htf
        obtain ⟨l, hl, hlt⟩ := List.mem_map.mp htf
        rw [← hlt]
      · rw [hcase] at htf
        have : t = (l.1, l.2, posGet (processChunks (chunksOf tree) [] []).2 it.1) := by
          simpa using htf
        rw [this]
    cases hpos : posGet (processChunks (chunksOf tree) [] []).2 it.1 with
    | none =>
      left
      rw [hval, hpos]
    | some id =>
      right
      refine ⟨id, by rw [hval, hpos], ?_⟩
      have hmem := posGet_mem hpos
      have := processChunks_pos_sub (chunksOf tree) [] [] rfl (by simp) _ hmem
      exact this

/-- Witness for `c8_tokens_preserved` at a concrete parse result. -/
theorem c8_witness :
    ((label_nounphrases [PItem.chunk [("the", "DT"), ("device", "NN")],
        PItem.leaf ("rotates", "VBZ")]).1).map (fun t => (t.1, t.2.1))
      = leavesOf [PItem.chunk [("the", "DT"), ("device", "NN")],
        PItem.leaf ("rotates", "VBZ")] ∧
    (("rotates", "VBZ",
        (none : Option Nat)).2.2 = none ∨
      ∃ id, (("rotates", "VBZ", (none : Option Nat)) :
          String × String × Option Nat).2.2 = some id ∧
        id ∈ ((label_nounphrases [PItem.chunk [("the", "DT"), ("device", "NN")],
          PItem.leaf ("rotates", "VBZ")]).2).map Prod.snd) := by
  refine ⟨(c8_tokens_preserved _).1, ?_⟩
  exact (c8_tokens_preserved [PItem.chunk [("the", "DT"), ("device", "NN")],
    PItem.leaf ("rotates", "VBZ")]).2 ("rotates", "VBZ", none) (by decide)

/-- C4: the identity-resolution step, on any mapping reachable in
`label_nounphrases` (ids count up from 1): an exact key match reuses the
stored id; otherwise the first key matching by word-boundary-aware
`ends_with` lends its id; otherwise a fresh id `size + 1` is assigned; and
the spec's example ("the control device" then "the device") resolves both
mentions to the same id through the whole pipeline. -/
theorem c4_identity_resolution (m : List (String × Nat)) (np : String)
    (hwf : m.map Prod.snd = List.range' 1 m.length) :
    (∀ v, dictGet m np = some v → resolveNP m np = (v, m)) ∧
    (dictGet m np = none →
      ∀ k ks, (m.map Prod.fst).filter (fun k2 => ends_with np k2) = k :: ks →
        ∃ id, dictGet m k = some id ∧ resolveNP m np = (id, m)) ∧
    (dictGet m np = none →
      (m.map Prod.fst).filter (fun k2 => ends_with np k2) = [] →
      resolveNP m np = (m.length + 1, m ++ [(np, m.length + 1)])) ∧
    (label_nounphrases [PItem.chunk [("the", "DT"), ("control", "NN"), ("device", "NN")],
        PItem.leaf ("and", "CC"),
        PItem.chunk [("the", "DT"), ("device", "NN")]]).1
      = [("the", "DT", some 1), ("control", "NN", some 1), ("device", "NN", some 1),
         ("and", "CC", none), ("the", "DT", some 1), ("device", "NN", some 1)] := by
  refine ⟨?_, ?_, ?_, rfl⟩
  · intro v hv
    exact resolveNP_exact hwf hv
  · intro h k ks hf
    exact resolveNP_suffix h hf
  · intro h hf
    exact resolveNP_fresh h hf

/-- Witness for `c4_identity_resolution`: on the mapping holding only
`"control device"`, the new canonical string `"device"` resolves by suffix
match to id 1 without changing the mapping. -/
theorem c4_witness :
    resolveNP [("control device", 1)] "device" = (1, [("control device", 1)]) := by
  obtain ⟨id, hid, hres⟩ :=
    (c4_identity_resolution [("control device", 1)] "device" rfl).2.1 rfl
      "control device" [] rfl
  have hone : some 1 = some id := by rw [← hid]; rfl
  injection hone with hone
  rw [← hone] at hres
  exact hres

/-- C9: after `label_nounphrases`, the mapping's values are exactly
`1, ..., size` in insertion order (hence pairwise distinct); and a mention
resolved by suffix match reuses an existing id without adding its canonical
string as a key: the mapping is unchanged. -/
theorem c9_mapping_invariants (tree : List PItem) (m : List (String × Nat))
    (np k : String) (ks : List String)
    (hnone : dictGet m np = none)
    (hfil : (m.map Prod.fst).filter (fun k2 => ends_with np k2) = k :: ks) :
    ((label_nounphrases tree).2).map Prod.snd
      = List.range' 1 ((label_nounphrases tree).2).length ∧
    (resolveNP m np).2 = m := by
  constructor
  · exact processChunks_wf (chunksOf tree) [] [] rfl
  · obtain ⟨id, hid, hres⟩ := resolveNP_suffix hnone hfil
    rw [hres]

/-- Witness for `c9_mapping_invariants` at a concrete tree and suffix
resolution. -/
theorem c9_witness :
    ((label_nounphrases [PItem.chunk [("the", "DT"), ("control", "NN"), ("device", "NN")],
        PItem.chunk [("a", "DT"), ("sensor", "NN")]]).2).map Prod.snd
      = List.range' 1 ((label_nounphrases
          [PItem.chunk [("the", "DT"), ("control", "NN"), ("device", "NN")],
           PItem.chunk [("a", "DT"), ("sensor", "NN")]]).2).length ∧
    (resolveNP [("control device", 1)] "device").2 = [("control device", 1)] :=
  c9_mapping_invariants
    [PItem.chunk [("the", "DT"), ("control", "NN"), ("device", "NN")],
     PItem.chunk [("a", "DT"), ("sensor", "NN")]]
    [("control device", 1)] "device" "control device" [] rfl rfl

/-! ## Dependency detection (C6) -/

/-- Character lookups shift across an appended prefix. -/
lemma charAt_shift (l1 l2 : List Char) (j : Nat) :
    charAt (l1 ++ l2) (l1.length + j) = charAt l2 j := by
  unfold charAt
  rw [List.getElem?_append_right (by omega)]
  congr 1
  omega

/-- Character lookups inside the prefix ignore the appended tail. -/
lemma charAt_keep {l1 l2 : List Char} {j : Nat} (h : j < l1.length) :
    charAt (l1 ++ l2) j = charAt l1 j := by
  unfold charAt
  exact List.getElem?_append_left h

/-- Literal tests shift across an appended prefix. -/
lemma litAt_shift (l1 l2 : List Char) (j : Nat) :
    ∀ lit, litAt (l1 ++ l2) (l1.length + j) lit = litAt l2 j lit := by
  intro lit
  induction lit generalizing j with
  | nil => rfl
  | cons c cs ih =>
    simp only [litAt]
    rw [charAt_shift, show l1.length + j + 1 = l1.length + (j + 1) from by omega, ih (j + 1)]

/-- Literal tests inside the prefix ignore the appended tail. -/
lemma litAt_keep (l1 l2 : List Char) :
    ∀ (lit : List Char) (j : Nat), j + lit.length ≤ l1.length →
      litAt (l1 ++ l2) j lit = litAt l1 j lit := by
  intro lit
  induction lit with
  | nil => intro j _; rfl
  | cons c cs ih =>
    intro j h
    simp only [List.length_cons] at h
    simp only [litAt]
    rw [charAt_keep (by omega), ih (j + 1) (by omega)]

/-- Whitespace tests shift across an appended prefix. -/
lemma wsAt_shift (l1 l2 : List Char) (j : Nat) :
    wsAt (l1 ++ l2) (l1.length + j) = wsAt l2 j := by
  unfold wsAt
  rw [charAt_shift]

/-- `claim`-word tests shift across an appended prefix. -/
lemma claimWordAt_shift (l1 l2 : List Char) (j : Nat) :
    claimWordAt (l1 ++ l2) (l1.length + j) = claimWordAt l2 j := by
  unfold claimWordAt
  rw [charAt_shift, show l1.length + j + 1 = l1.length + (j + 1) from by omega, litAt_shift]

/-- Digit runs shift across an appended prefix. -/
lemma digitRunLen_shift (l1 l2 : List Char) (j : Nat) :
    digitRunLen (l1 ++ l2) (l1.length + j) = digitRunLen l2 j := by
  unfold digitRunLen
  rw [List.drop_append]

/-- The optional range group shifts across an appended prefix. -/
lemma depRangeOpt_shift (l1 l2 : List Char) (d : Nat) :
    depRangeOpt (l1 ++ l2) (l1.length + d) = l1.length + depRangeOpt l2 d := by
  unfold depRangeOpt
  simp only [Nat.add_assoc, wsAt_shift, litAt_shift, claimWordAt_shift, digitRunLen_shift]
  split
  · omega
  · split
    · omega
    · omega

/-- The optional `wherein` group shifts across an appended prefix. -/
lemma depWhereinOpt_shift (l1 l2 : List Char) (e : Nat) :
    depWhereinOpt (l1 ++ l2) (l1.length + e) = l1.length + depWhereinOpt l2 e := by
  unfold depWhereinOpt
  simp only [Nat.add_assoc, charAt_shift, wsAt_shift, litAt_shift]
  split
  · omega
  · omega

/-- The post-`claims?` part shifts across an appended prefix. -/
lemma depAfterClaims_shift (l1 l2 : List Char) (r : Nat) :
    depAfterClaims (l1 ++ l2) (l1.length + r)
      = (depAfterClaims l2 r).map (l1.length + ·) := by
  unfold depAfterClaims
  simp only [Nat.add_assoc, wsAt_shift, digitRunLen_shift]
  split
  · rw [depRangeOpt_shift, depWhereinOpt_shift, Option.map_some']
  · rfl

/-- The core part (after the optional preposition) shifts across an
appended prefix. -/
lemma depFromWS_shift (l1 l2 : List Char) (p : Nat) :
    depFromWS (l1 ++ l2) (l1.length + p) = (depFromWS l2 p).map (l1.length + ·) := by
  unfold depFromWS
  simp only [Nat.add_assoc, wsAt_shift, claimWordAt_shift, charAt_shift, depAfterClaims_shift]
  split
  · cases h7 : depAfterClaims l2 (p + 7) <;> cases h6 : depAfterClaims l2 (p + 6) <;>
      split <;> simp_all
  · rfl

/-- A primary-regex match shifts across an appended prefix. -/
lemma depMatchAt_shift (l1 l2 : List Char) (i : Nat) :
    depMatchAt (l1 ++ l2) (l1.length + i) = (depMatchAt l2 i).map (l1.length + ·) := by
  unfold depMatchAt
  simp only [Nat.add_assoc, litAt_shift, depFromWS_shift]
  by_cases hof : litAt l2 i ("of".toList) = true <;>
    by_cases hto : litAt l2 i ("to".toList) = true <;>
      by_cases hwi : litAt l2 i ("with".toList) = true <;>
        by_cases hin : litAt l2 i ("in".toList) = true <;>
          simp only [hof, hto, hwi, hin, if_true, if_false] <;>
            cases depFromWS l2 (i + 2) <;> cases depFromWS l2 (i + 4) <;>
              cases depFromWS l2 i <;> simp

/-- The secondary-regex tail shifts across an appended prefix. -/
lemma preCont_shift (l1 l2 : List Char) (p : Nat) :
    preCont (l1 ++ l2) (l1.length + p) = (preCont l2 p).map (l1.length + ·) := by
  unfold preCont
  simp only [Nat.add_assoc, wsAt_shift, claimWordAt_shift, charAt_shift, depWhereinOpt_shift]
  split
  · split <;> rw [depWhereinOpt_shift] <;> simp
  · rfl

/-- A secondary-regex match shifts across an appended prefix. -/
lemma preMatchAt_shift (l1 l2 : List Char) (i : Nat) :
    preMatchAt (l1 ++ l2) (l1.length + i) = (preMatchAt l2 i).map (l1.length + ·) := by
  unfold preMatchAt
  simp only [Nat.add_assoc, wsAt_shift, litAt_shift, preCont_shift]
  split
  · by_cases hpg : litAt l2 (i + 1) ("preceding".toList) = true <;>
      by_cases hpv : litAt l2 (i + 1) ("previous".toList) = true <;>
        simp only [hpg, hpv, if_true, if_false] <;>
          cases preCont l2 (i + 10) <;> cases preCont l2 (i + 9) <;> simp
  · rfl

/-- The range group never moves the position backwards. -/
lemma depRangeOpt_ge (s : List Char) (d : Nat) : d ≤ depRangeOpt s d := by
  unfold depRangeOpt
  split
  · omega
  · split <;> omega

/-- The `wherein` group never moves the position backwards. -/
lemma depWhereinOpt_ge (s : List Char) (e : Nat) : e ≤ depWhereinOpt s e := by
  unfold depWhereinOpt
  split <;> omega

/-- `re.search` returns the first matching position when everything before
it fails. -/
lemma reSearchAux_exact {f : Nat → Option Nat} {i0 e0 : Nat}
    (hf : f i0 = some e0) (hnone : ∀ j, j < i0 → f j = none) :
    ∀ (fuel start : Nat), start ≤ i0 → i0 < start + fuel →
      reSearchAux f start fuel = some (i0, e0) := by
  intro fuel
  induction fuel with
  | zero => intro start h1 h2; omega
  | succ fuel ih =>
    intro start h1 h2
    rw [reSearchAux]
    by_cases hs : start = i0
    · subst hs
      rw [hf]
    · rw [hnone start (by omega)]
      exact ih (start + 1) (by omega) (by omega)

/-- `re.search` succeeds when some position within range matches. -/
lemma reSearchAux_isSome {f : Nat → Option Nat} {i0 : Nat}
    (hf : (f i0).isSome = true) :
    ∀ (fuel start : Nat), start ≤ i0 → i0 < start + fuel →
      (reSearchAux f start fuel).isSome = true := by
  intro fuel
  induction fuel with
  | zero => intro start h1 h2; omega
  | succ fuel ih =>
    intro start h1 h2
    rw [reSearchAux]
    cases hfs : f start with
    | some e => rfl
    | none =>
      have hne : start ≠ i0 := by
        intro hh
        rw [← hh, hfs] at hf
        simp at hf
      exact ih (start + 1) (by omega) (by omega)

/-- A successful core match begins with whitespace followed (after the
`C`/`c`) by the literal `laim`. -/
lemma depFromWS_shape {s : List Char} {p e : Nat} (h : depFromWS s p = some e) :
    wsAt s p = true ∧ litAt s (p + 2) ("laim".toList) = true := by
  unfold depFromWS at h
  split at h
  · rename_i hcond
    simp only [Bool.and_eq_true] at hcond
    obtain ⟨hws, hclaim⟩ := hcond
    unfold claimWordAt at hclaim
    simp only [Bool.and_eq_true] at hclaim
    exact ⟨hws, hclaim.2⟩
  · exact absurd h (by simp)

/-- Any successful primary match at `i` puts the literal `laim` at
`i + 2`, `i + 4` (after a two-letter preposition) or `i + 6` (after
`with`), with the matched preposition a literal of the text. -/
lemma depMatchAt_shape {s : List Char} {i e : Nat} (h : depMatchAt s i = some e) :
    (wsAt s i = true ∧ litAt s (i + 2) ("laim".toList) = true) ∨
    ((litAt s i ("of".toList) = true ∨ litAt s i ("to".toList) = true ∨
        litAt s i ("in".toList) = true) ∧
      wsAt s (i + 2) = true ∧ litAt s (i + 4) ("laim".toList) = true) ∨
    (litAt s i ("with".toList) = true ∧
      wsAt s (i + 4) = true ∧ litAt s (i + 6) ("laim".toList) = true) := by
  unfold depMatchAt at h
  cases h1 : (if litAt s i ("of".toList) = true then depFromWS s (i + 2) else none) with
  | some v =>
    rw [h1] at h
    by_cases hc : litAt s i ("of".toList) = true
    · rw [if_pos hc] at h1
      obtain ⟨hw, hl⟩ := depFromWS_shape h1
      exact Or.inr (Or.inl ⟨Or.inl hc, hw, hl⟩)
    · rw [if_neg hc] at h1
      exact absurd h1 (by simp)
  | none =>
    rw [h1] at h
    cases h2 : (if litAt s i ("to".toList) = true then depFromWS s (i + 2) else none) with
    | some v =>
      rw [h2] at h
      by_cases hc : litAt s i ("to".toList) = true
      · rw [if_pos hc] at h2
        obtain ⟨hw, hl⟩ := depFromWS_shape h2
        exact Or.inr (Or.inl ⟨Or.inr (Or.inl hc), hw, hl⟩)
      · rw [if_neg hc] at h2
        exact absurd h2 (by simp)
    | none =>
      rw [h2] at h
      cases h3 : (if litAt s i ("with".toList) = true then depFromWS s (i + 4) else none) with
      | some v =>
        rw [h3] at h
        by_cases hc : litAt s i ("with".toList) = true
        · rw [if_pos hc] at h3
          obtain ⟨hw, hl⟩ := depFromWS_shape h3
          exact Or.inr (Or.inr ⟨hc, hw, hl⟩)
        · rw [if_neg hc] at h3
          exact absurd h3 (by simp)
      | none =>
        rw [h3] at h
        cases h4 : (if litAt s i ("in".toList) = true then depFromWS s (i + 2) else none) with
        | some v =>
          rw [h4] at h
          by_cases hc : litAt s i ("in".toList) = true
          · rw [if_pos hc] at h4
            obtain ⟨hw, hl⟩ := depFromWS_shape h4
            exact Or.inr (Or.inl ⟨Or.inr (Or.inr hc), hw, hl⟩)
          · rw [if_neg hc] at h4
            exact absurd h4 (by simp)
        | none =>
          rw [h4] at h
          obtain ⟨hw, hl⟩ := depFromWS_shape h
          exact Or.inl ⟨hw, hl⟩

/-- A literal that reaches exactly the end of the text is its final
segment. -/
lemma litAt_drop_eq {l : List Char} :
    ∀ (lit : List Char) (q : Nat), litAt l q lit = true → q + lit.length = l.length →
      l.drop q = lit := by
  intro lit
  induction lit with
  | nil =>
    intro q _ hlen
    simp only [List.length_nil, Nat.add_zero] at hlen
    exact List.drop_of_length_le (by omega)
  | cons c cs ih =>
    intro q hlit hlen
    simp only [litAt, Bool.and_eq_true, beq_iff_eq] at hlit
    obtain ⟨hc, hrest⟩ := hlit
    have hq : q < l.length := charAt_lt_length hc
    rw [List.drop_eq_getElem_cons hq]
    have hcg : l[q] = c := by
      unfold charAt at hc
      obtain ⟨h1, h2⟩ := List.getElem?_eq_some_iff.mp hc
      exact h2
    rw [hcg, ih (q + 1) hrest (by simp only [List.length_cons] at hlen; omega)]

/-- With no `laim` inside the prefix, the only occurrence of `laim` in the
first `pre.length + 5` positions of `pre ++ " claims 2 to 5" ++ post` is
the canonical one at `pre.length + 2`. -/
lemma laim_only_at (pre post : List Char)
    (hl : ∀ q, q < pre.length → litAt pre q ("laim".toList) = false) :
    ∀ q, q ≤ pre.length + 5 →
      litAt (pre ++ (" claims 2 to 5".toList ++ post)) q ("laim".toList) = true →
      q = pre.length + 2 := by
  intro q hq5 hq0
  have hc0 : charAt (pre ++ (" claims 2 to 5".toList ++ post)) (pre.length + 0)
      = some ' ' := by rw [charAt_shift]; rfl
  rw [Nat.add_zero] at hc0
  have hc1 : charAt (pre ++ (" claims 2 to 5".toList ++ post)) (pre.length + 1)
      = some 'c' := by rw [charAt_shift]; rfl
  have hc3 : charAt (pre ++ (" claims 2 to 5".toList ++ post)) (pre.length + 3)
      = some 'a' := by rw [charAt_shift]; rfl
  have hc4 : charAt (pre ++ (" claims 2 to 5".toList ++ post)) (pre.length + 4)
      = some 'i' := by rw [charAt_shift]; rfl
  have hc5 : charAt (pre ++ (" claims 2 to 5".toList ++ post)) (pre.length + 5)
      = some 'm' := by rw [charAt_shift]; rfl
  have hq : litAt (pre ++ (" claims 2 to 5".toList ++ post)) q
      ('l' :: 'a' :: 'i' :: 'm' :: []) = true := hq0
  simp only [litAt, Bool.and_eq_true, beq_iff_eq] at hq
  obtain ⟨hql, hqa, hqi, hqm, -⟩ := hq
  by_cases hcase : q + 4 ≤ pre.length
  · rw [litAt_keep pre _ _ q (by show q + 4 ≤ pre.length; omega)] at hq0
    rw [hl q (by omega)] at hq0
    simp at hq0
  · have hsplit : q + 1 = pre.length ∨ q + 2 = pre.length ∨ q + 3 = pre.length ∨
        q = pre.length ∨ q = pre.length + 1 ∨ q = pre.length + 2 ∨
        q = pre.length + 3 ∨ q = pre.length + 4 ∨ q = pre.length + 5 := by omega
    rcases hsplit with h | h | h | h | h | h | h | h | h
    · rw [h] at hqa
      rw [hc0] at hqa
      simp at hqa
    · rw [show q + 1 + 1 = pre.length from by omega] at hqi
      rw [hc0] at hqi
      simp at hqi
    · rw [show q + 1 + 1 + 1 = pre.length from by omega] at hqm
      rw [hc0] at hqm
      simp at hqm
    · rw [h, hc0] at hql
      simp at hql
    · rw [h, hc1] at hql
      simp at hql
    · exact h
    · rw [h, hc3] at hql
      simp at hql
    · rw [h, hc4] at hql
      simp at hql
    · rw [h, hc5] at hql
      simp at hql

/-- Under the prefix hypotheses, the primary dependency regex matches at no
position strictly inside the prefix. -/
lemma depMatchAt_none_before (pre post : List Char)
    (hl : ∀ q, q < pre.length → litAt pre q ("laim".toList) = false)
    (hof : pre.drop (pre.length - 2) ≠ "of".toList)
    (hto : pre.drop (pre.length - 2) ≠ "to".toList)
    (hin : pre.drop (pre.length - 2) ≠ "in".toList)
    (hwi : pre.drop (pre.length - 4) ≠ "with".toList) :
    ∀ i, i < pre.length →
      depMatchAt (pre ++ (" claims 2 to 5".toList ++ post)) i = none := by
  intro i hi
  cases hm : depMatchAt (pre ++ (" claims 2 to 5".toList ++ post)) i with
  | none => rfl
  | some e =>
    exfalso
    rcases depMatchAt_shape hm with ⟨-, hlaim⟩ | ⟨hprep, -, hlaim⟩ | ⟨hprep, -, hlaim⟩
    · have := laim_only_at pre post hl (i + 2) (by omega) hlaim
      omega
    · have hq := laim_only_at pre post hl (i + 4) (by omega) hlaim
      have hi2 : i + 2 = pre.length := by omega
      rcases hprep with hp | hp | hp
      · rw [litAt_keep pre _ _ i (by show i + 2 ≤ pre.length; omega)] at hp
        have hd := litAt_drop_eq _ i hp (by show i + 2 = pre.length; omega)
        rw [show i = pre.length - 2 from by omega] at hd
        exact hof hd
      · rw [litAt_keep pre _ _ i (by show i + 2 ≤ pre.length; omega)] at hp
        have hd := litAt_drop_eq _ i hp (by show i + 2 = pre.length; omega)
        rw [show i = pre.length - 2 from by omega] at hd
        exact hto hd
      · rw [litAt_keep pre _ _ i (by show i + 2 ≤ pre.length; omega)] at hp
        have hd := litAt_drop_eq _ i hp (by show i + 2 = pre.length; omega)
        rw [show i = pre.length - 2 from by omega] at hd
        exact hin hd
    · have hq := laim_only_at pre post hl (i + 6) (by omega) hlaim
      have hi4 : i + 4 = pre.length := by omega
      rw [litAt_keep pre _ _ i (by show i + 4 ≤ pre.length; omega)] at hprep
      have hd := litAt_drop_eq _ i hprep (by show i + 4 = pre.length; omega)
      rw [show i = pre.length - 4 from by omega] at hd
      exact hwi hd

/-- The first digit run of any sufficiently long prefix of
`" claims 2 to 5" ++ post` is the single digit `2`. -/
lemma firstDigitRun_take_mid (post : List Char) {e0 : Nat} (he : 9 ≤ e0) :
    firstDigitRun ((" claims 2 to 5".toList ++ post).take e0) = some ['2'] := by
  obtain ⟨k, rfl⟩ : ∃ k, e0 = 9 + k := ⟨e0 - 9, by omega⟩
  have h1 : " claims 2 to 5".toList ++ post
      = " claims 2".toList ++ (" to 5".toList ++ post) := rfl
  have h2 : (9 : Nat) + k = (" claims 2".toList).length + k := rfl
  rw [h1, h2, List.take_append]
  have h3 : firstDigitRun (" claims 2".toList ++ (" to 5".toList ++ post).take k)
      = some ('2' :: ((" to 5".toList ++ post).take k).takeWhile Char.isDigit) := rfl
  rw [h3]
  cases k with
  | zero => rfl
  | succ k2 => rfl

/-- C6, amended: the dependency phrases only match when preceded by a
whitespace character, as the regexes' mandatory leading `\s` requires.
(a) For a text `pre ++ " claims 2 to 5" ++ post`, where the prefix contains
no occurrence of `laim` and does not end in one of the optional
prepositions `of`/`to`/`in`/`with`, the dependency is 2 (the first digit
sequence of the matched group).  (b) For a text with no primary match that
contains `" preceding claims"` (with its leading whitespace), the
dependency is 1.  (c) For a text matching neither pattern, the dependency
is 0. -/
theorem c6_dependency_amended (pre post : List Char)
    (hl : ∀ q, q < pre.length → litAt pre q ("laim".toList) = false)
    (hof : pre.drop (pre.length - 2) ≠ "of".toList)
    (hto : pre.drop (pre.length - 2) ≠ "to".toList)
    (hin : pre.drop (pre.length - 2) ≠ "in".toList)
    (hwi : pre.drop (pre.length - 4) ≠ "with".toList)
    (s2 a b : List Char) (hs2 : s2 = a ++ (" preceding claims".toList ++ b))
    (hnoprim : depSearch s2 = none)
    (s3 : List Char) (h3p : depSearch s3 = none) (h3s : preSearch s3 = none) :
    detect_dependency (pre ++ (" claims 2 to 5".toList ++ post)) = 2 ∧
    detect_dependency s2 = 1 ∧
    detect_dependency s3 = 0 := by
  refine ⟨?_, ?_, ?_⟩
  · -- (a): the leftmost primary match starts at the boundary whitespace
    have hB : depMatchAt (" claims 2 to 5".toList ++ post) 0
        = some (depWhereinOpt (" claims 2 to 5".toList ++ post)
            (depRangeOpt (" claims 2 to 5".toList ++ post) 9)) := rfl
    have hshift := depMatchAt_shift pre (" claims 2 to 5".toList ++ post) 0
    rw [Nat.add_zero, hB, Option.map_some'] at hshift
    have he9 : 9 ≤ depWhereinOpt (" claims 2 to 5".toList ++ post)
        (depRangeOpt (" claims 2 to 5".toList ++ post) 9) :=
      Nat.le_trans (depRangeOpt_ge _ 9) (depWhereinOpt_ge _ _)
    have hnone := depMatchAt_none_before pre post hl hof hto hin hwi
    have hsearch : depSearch (pre ++ (" claims 2 to 5".toList ++ post))
        = some (pre.length, pre.length + depWhereinOpt (" claims 2 to 5".toList ++ post)
            (depRangeOpt (" claims 2 to 5".toList ++ post) 9)) := by
      unfold depSearch
      refine reSearchAux_exact hshift hnone _ 0 (by omega) ?_
      rw [List.length_append]
      omega
    unfold detect_dependency
    rw [hsearch]
    show parseDigits ((firstDigitRun (pySlice (pre ++ (" claims 2 to 5".toList ++ post))
        pre.length (pre.length + depWhereinOpt (" claims 2 to 5".toList ++ post)
          (depRangeOpt (" claims 2 to 5".toList ++ post) 9)))).getD []) = 2
    have hslice : pySlice (pre ++ (" claims 2 to 5".toList ++ post)) pre.length
        (pre.length + depWhereinOpt (" claims 2 to 5".toList ++ post)
          (depRangeOpt (" claims 2 to 5".toList ++ post) 9))
        = (" claims 2 to 5".toList ++ post).take
            (depWhereinOpt (" claims 2 to 5".toList ++ post)
              (depRangeOpt (" claims 2 to 5".toList ++ post) 9)) := by
      unfold pySlice
      rw [List.drop_left]
      congr 1
      omega
    rw [hslice, firstDigitRun_take_mid post he9]
    rfl
  · -- (b): the secondary regex matches at the boundary whitespace
    have hpre0 : (preMatchAt (" preceding claims".toList ++ b) 0).isSome = true := rfl
    have hshift := preMatchAt_shift a (" preceding claims".toList ++ b) 0
    rw [Nat.add_zero] at hshift
    have hpre : (preMatchAt (a ++ (" preceding claims".toList ++ b)) a.length).isSome
        = true := by
      rw [hshift, Option.isSome_map']
      exact hpre0
    have hsec : (preSearch s2).isSome = true := by
      rw [hs2]
      unfold preSearch
      refine reSearchAux_isSome hpre _ 0 (by omega) ?_
      rw [List.length_append]
      omega
    unfold detect_dependency
    rw [hnoprim]
    cases hp : preSearch s2 with
    | some v => rfl
    | none =>
      rw [hp] at hsec
      simp at hsec
  · -- (c): neither pattern matches
    unfold detect_dependency
    rw [h3p, h3s]

/-- Witness for `c6_dependency_amended` at concrete texts: prefix
`"A method according"`, secondary text `"as in the preceding claims."`, and
the pattern-free `"A widget assembly"`. -/
theorem c6_witness :
    detect_dependency (("A method according".toList)
      ++ (" claims 2 to 5".toList ++ [])) = 2 ∧
    detect_dependency ("as in the preceding claims.".toList) = 1 ∧
    detect_dependency ("A widget assembly".toList) = 0 :=
  c6_dependency_amended ("A method according".toList) [] (by decide)
    (by decide) (by decide) (by decide) (by decide)
    ("as in the preceding claims.".toList) ("as in the".toList) (".".toList)
    rfl rfl ("A widget assembly".toList) rfl rfl
